import Mathlib

/-!
Shallow embedding of the gitLore enrichment pipeline (Go sources
`fetch_repos.go` and its enriched revision), covering the four field
enrichers, the commit-activity retry/backoff loop, the per-record
enrichment job, the worker-pool schedule, and the summary aggregation
fold.  Network exchanges are modelled as values: an exchange either
fails at the transport level (doGET returning an error) or yields an
HTTP status code together with the result of parsing the response body.
Go `int` fields are modelled as `Int`; Go strings as Lean `String`
(character sequences); Go maps that are only ever bumped pointwise as
total functions `String → Int` defaulting to 0.
-/

namespace GitLore

/-- One week of commit statistics (Go struct `weeklyStat`: json fields
`total`, `w`, `days`). -/
structure WeeklyStat where
  Total : Int
  Week : Int
  Days : List Int
deriving Repr, DecidableEq

/-- A contributor entry (Go struct `contributor`). -/
structure Contributor where
  Login : String
  Contributions : Int
deriving Repr, DecidableEq

/-- One element of the commits listing (Go struct `commitListItem`,
flattening the nested `commit.author.date` and `commit.message`). -/
structure CommitListItem where
  SHA : String
  Date : String
  Message : String
deriving Repr, DecidableEq

/-- The ways a single enricher call can fail: transport error from
`doGET`, a non-success HTTP status, or a JSON decode failure. -/
inductive FetchErr where
  | netErr : FetchErr
  | httpErr (status : Nat) : FetchErr
  | parseErr : FetchErr
deriving Repr, DecidableEq

/-- Outcome of one HTTP exchange as a fetcher sees it: either `doGET`
returned a transport error, or it returned a status code and a body
whose parse attempt yielded `parsed` (`none` models a JSON decode
failure for the expected shape `α`). -/
inductive HttpResult (α : Type) where
  | netErr : HttpResult α
  | http (status : Nat) (parsed : Option α) : HttpResult α
deriving Repr, DecidableEq

/-- Truncation cap for the last-commit message. -/
def msgCap : Nat := 100

/-- `fetchLastCommit`: one exchange against the commits endpoint
(`per_page=1`).  Non-2xx status is an error; an empty commit list yields
empty date and message with no error; otherwise the head commit's date
and message are returned, the message truncated to `msgCap` characters
plus `"..."` when longer than the cap. -/
def fetchLastCommit (r : HttpResult (List CommitListItem)) :
    Except FetchErr (String × String) :=
  match r with
  | .netErr => .error .netErr
  | .http status parsed =>
    if status < 200 ∨ 300 ≤ status then .error (.httpErr status)
    else
      match parsed with
      | none => .error .parseErr
      | some [] => .ok ("", "")
      | some (c :: _) =>
        let msg := if c.Message.length > msgCap
          then c.Message.take msgCap ++ "..." else c.Message
        .ok (c.Date, msg)

/-- The fixed backoff table of the commit-activity retry loop, in
milliseconds. -/
def backoffsMs : List Nat := [700, 1200, 2000, 3000]

/-- Terminal result of `fetchCommitActivity52W` (the Go function's
`([]weeklyStat, bool, error)` triple). -/
structure ActivityResult where
  weeks : List WeeklyStat
  pending : Bool
  err : Option FetchErr
deriving Repr, DecidableEq

/-- The retry loop body of `fetchCommitActivity52W`.  `resp k` is the
outcome of the exchange performed on attempt `k`; `fuel` counts the
remaining loop iterations (the Go loop runs `attempt = 0 ..
backoffsMs.length`).  A 202 status on the last table entry — or fuel
running out, the Go loop's unreachable fall-through — ends in the
pending state; a 202 earlier sleeps and retries; any other non-2xx is a
hard error; a 2xx body parse failure is an error; otherwise the parsed
weeks are returned. -/
def activityLoop (resp : Nat → HttpResult (List WeeklyStat)) :
    Nat → Nat → ActivityResult
  | 0, _ => ⟨[], true, none⟩
  | fuel + 1, attempt =>
    match resp attempt with
    | .netErr => ⟨[], false, some .netErr⟩
    | .http status parsed =>
      if status = 202 then
        if attempt = backoffsMs.length then ⟨[], true, none⟩
        else activityLoop resp fuel (attempt + 1)
      else if status < 200 ∨ 300 ≤ status then
        ⟨[], false, some (.httpErr status)⟩
      else
        match parsed with
        | none => ⟨[], false, some .parseErr⟩
        | some weeks => ⟨weeks, false, none⟩

/-- `fetchCommitActivity52W`: run the retry loop from attempt 0 with one
iteration per backoff entry plus the initial attempt. -/
def fetchCommitActivity52W (resp : Nat → HttpResult (List WeeklyStat)) :
    ActivityResult :=
  activityLoop resp (backoffsMs.length + 1) 0

/-- `fetchLanguages`: one exchange against the languages endpoint,
returning the language→byte-count mapping (as the association list the
decoder produced). -/
def fetchLanguages (r : HttpResult (List (String × Int))) :
    Except FetchErr (List (String × Int)) :=
  match r with
  | .netErr => .error .netErr
  | .http status parsed =>
    if status < 200 ∨ 300 ≤ status then .error (.httpErr status)
    else
      match parsed with
      | none => .error .parseErr
      | some langs => .ok langs

/-- The fixed page-size cap of the contributors request (`per_page=10`). -/
def contributorsPerPage : Nat := 10

/-- The request `fetchContributors` issues: the repository's full name
with the fixed page-size cap baked into the URL. -/
structure ContributorsRequest where
  fullName : String
  perPage : Nat
deriving Repr, DecidableEq

/-- The contributors request construction. -/
def contributorsRequest (fullName : String) : ContributorsRequest :=
  ⟨fullName, contributorsPerPage⟩

/-- `fetchContributors`: one exchange against the contributors endpoint.
On success it returns the received list and a count — the received
length, kept at the cap when a full page came back (the Go code sets
`total := len(contribs)` and then re-assigns `total = 10` when
`len(contribs) == 10`). -/
def fetchContributors (r : HttpResult (List Contributor)) :
    Except FetchErr (List Contributor × Int) :=
  match r with
  | .netErr => .error .netErr
  | .http status parsed =>
    if status < 200 ∨ 300 ≤ status then .error (.httpErr status)
    else
      match parsed with
      | none => .error .parseErr
      | some contribs =>
        let total : Nat := contribs.length
        let total : Nat :=
          if contribs.length = contributorsPerPage then contributorsPerPage
          else total
        .ok (contribs, (total : Int))

/-- An output record (Go struct `outRepo`).  Fields that neither the
enrichment job writes nor the aggregation loop reads (description,
homepage, URLs, feature booleans, the human-readable size string, …)
are pure pass-through data and are omitted from the embedding. -/
structure OutRepo where
  FullName : String
  Private : Bool
  Fork : Bool
  Archived : Bool
  OwnerType : String
  Language : String
  Topics : List String
  License : String
  SizeKB : Int
  Stars : Int
  Forks : Int
  Watchers : Int
  CreatedAt : String
  UpdatedAt : String
  PushedAt : String
  LastCommitAt : String
  LastCommitMessage : String
  WeeklyCommits52W : List Int
  WeeklyStats52W : List WeeklyStat
  LanguageBreakdown : List (String × Int)
  TopContributors : List Contributor
  ContributorCount : Int
  TotalCommits : Int
  StatsCachePending : Bool
deriving Repr, DecidableEq

/-- The four enricher outcomes one job consumes: the worker body binds
`fetchLastCommit`, `fetchCommitActivity52W`, `fetchLanguages` and
`fetchContributors` results in this order. -/
structure JobResults where
  last : Except FetchErr (String × String)
  activity : ActivityResult
  langs : Except FetchErr (List (String × Int))
  contribs : Except FetchErr (List Contributor × Int)
deriving Repr

/-- One enrichment job (the worker loop body): each of the four steps
writes its record fields exactly when its own call returned no error;
an erroring step leaves its fields untouched and the job continues with
the next step.  The languages step additionally requires a non-empty
mapping before writing; the activity step also derives the flat weekly
totals and their sum. -/
def enrichJob (r : OutRepo) (j : JobResults) : OutRepo :=
  let r1 := match j.last with
    | .ok dm => { r with LastCommitAt := dm.1, LastCommitMessage := dm.2 }
    | .error _ => r
  let r2 := match j.activity.err with
    | none =>
      let totals := j.activity.weeks.map (·.Total)
      { r1 with
          WeeklyStats52W := j.activity.weeks
          StatsCachePending := j.activity.pending
          WeeklyCommits52W := totals
          TotalCommits := totals.sum }
    | some _ => r1
  let r3 := match j.langs with
    | .ok langs => if langs.length > 0
        then { r2 with LanguageBreakdown := langs } else r2
    | .error _ => r2
  match j.contribs with
  | .ok cn => { r3 with TopContributors := cn.1, ContributorCount := cn.2 }
  | .error _ => r3

/-- Running the job for index `i` on the shared record list: the slot at
`i` is replaced by its enrichment (out-of-range indices never occur in a
run and leave the list unchanged).  `env i` packages the responses the
four network calls of job `i` produced. -/
def applyJob (env : Nat → JobResults) (arr : List OutRepo) (i : Nat) :
    List OutRepo :=
  if h : i < arr.length then arr.set i (enrichJob arr[i] (env i)) else arr

/-- A complete concurrent run of the worker pool, abstracted by the
order in which jobs completed their slot writes: `sched` lists record
indices in completion order.  Any worker count yields some such order;
every index appears exactly once because the coordinator dispatches each
index to exactly one worker. -/
def runSchedule (env : Nat → JobResults) (base : List OutRepo)
    (sched : List Nat) : List OutRepo :=
  sched.foldl (applyJob env) base

/-- Summary repo counts (Go `summary.RepoCounts`). -/
structure RepoCounts where
  Total : Int
  Public : Int
  Private : Int
  Archived : Int
  Forks : Int
  Org : Int
  User : Int
deriving Repr, DecidableEq

/-- Summary size block (Go `summary.Size`). -/
structure SizeInfo where
  TotalKB : Int
  Human : String
deriving Repr, DecidableEq

/-- Summary engagement sums (Go `summary.Engagement`). -/
structure Engagement where
  TotalStars : Int
  TotalForks : Int
  TotalWatchers : Int
  TotalCommits : Int
deriving Repr, DecidableEq

/-- Summary activity timestamps (Go `summary.Activity`), already
formatted back to strings. -/
structure Activity where
  MostRecentUpdate : String
  MostRecentPush : String
  OldestCreated : String
  OldestUpdate : String
deriving Repr, DecidableEq

/-- Summary enrichment-coverage counters (Go `summary.Enrichment`). -/
structure EnrichmentCounters where
  ReposWithLastCommit : Int
  ReposWithStats52W : Int
  ReposWithLanguages : Int
  ReposWithContributors : Int
  ReposStatsPending : Int
deriving Repr, DecidableEq

/-- The aggregate summary (Go struct `summary`).  The three frequency
maps are total functions defaulting to 0 (a Go map read of a missing
key). -/
structure Summary where
  GeneratedAt : String
  RepoCounts : RepoCounts
  Size : SizeInfo
  Engagement : Engagement
  Languages : String → Int
  Topics : String → Int
  Licenses : String → Int
  Activity : Activity
  Enrichment : EnrichmentCounters

/-- Environment of the aggregation fold: the RFC3339 parse (`none`
models a `time.Parse` error), instants modelled as `Int` with `After` =
`>` and `Before` = `<`, the RFC3339 formatter, the human-readable size
formatter, and the generation timestamp taken at the start of the
build. -/
structure AggEnv where
  parse : String → Option Int
  format : Int → String
  human : Int → String
  now : String

/-- Bump one key of a frequency map (`m[k]++` on a Go map). -/
def bump (m : String → Int) (k : String) : String → Int :=
  fun x => if x = k then m k + 1 else m x

/-- The running state of the aggregation loop: the summary under
construction plus the four tracked time extrema (`none` models the
cleared `hasX` flag; the Go pair of a `time.Time` and a bool is
equivalent because the value is never read while the flag is false). -/
structure AggState where
  sum : Summary
  newestUpdate : Option Int
  newestPush : Option Int
  oldestCreated : Option Int
  oldestUpdate : Option Int

/-- One iteration of the aggregation loop over a record `r` (the Go
`for _, r := range out` body). -/
def stepRepo (parse : String → Option Int) (st : AggState) (r : OutRepo) :
    AggState :=
  let s := st.sum
  let counts : GitLore.RepoCounts :=
    { Total := s.RepoCounts.Total + 1
      Public := s.RepoCounts.Public + (if r.Private then 0 else 1)
      Private := s.RepoCounts.Private + (if r.Private then 1 else 0)
      Archived := s.RepoCounts.Archived + (if r.Archived then 1 else 0)
      Forks := s.RepoCounts.Forks + (if r.Fork then 1 else 0)
      Org := s.RepoCounts.Org +
        (if r.OwnerType = "Organization" then 1 else 0)
      User := s.RepoCounts.User +
        (if r.OwnerType = "Organization" then 0 else 1) }
  let eng : GitLore.Engagement :=
    { TotalStars := s.Engagement.TotalStars + r.Stars
      TotalForks := s.Engagement.TotalForks + r.Forks
      TotalWatchers := s.Engagement.TotalWatchers + r.Watchers
      TotalCommits := s.Engagement.TotalCommits + r.TotalCommits }
  let langs := if r.Language ≠ "" then bump s.Languages r.Language
    else s.Languages
  let topics := r.Topics.foldl bump s.Topics
  let lics := if r.License ≠ "" then bump s.Licenses r.License
    else s.Licenses
  let enr : EnrichmentCounters :=
    { ReposWithLastCommit := s.Enrichment.ReposWithLastCommit +
        (if r.LastCommitAt ≠ "" then 1 else 0)
      ReposWithStats52W := s.Enrichment.ReposWithStats52W +
        (if r.WeeklyCommits52W.length > 0 then 1 else 0)
      ReposWithLanguages := s.Enrichment.ReposWithLanguages +
        (if r.LanguageBreakdown.length > 0 then 1 else 0)
      ReposWithContributors := s.Enrichment.ReposWithContributors +
        (if r.TopContributors.length > 0 then 1 else 0)
      ReposStatsPending := s.Enrichment.ReposStatsPending +
        (if r.StatsCachePending then 1 else 0) }
  let newestUpdate := match parse r.UpdatedAt with
    | none => st.newestUpdate
    | some t => match st.newestUpdate with
      | none => some t
      | some cur => if t > cur then some t else some cur
  let oldestUpdate := match parse r.UpdatedAt with
    | none => st.oldestUpdate
    | some t => match st.oldestUpdate with
      | none => some t
      | some cur => if t < cur then some t else some cur
  let newestPush := match parse r.PushedAt with
    | none => st.newestPush
    | some t => match st.newestPush with
      | none => some t
      | some cur => if t > cur then some t else some cur
  let oldestCreated := match parse r.CreatedAt with
    | none => st.oldestCreated
    | some t => match st.oldestCreated with
      | none => some t
      | some cur => if t < cur then some t else some cur
  { sum :=
      { GeneratedAt := s.GeneratedAt
        RepoCounts := counts
        Size := { s.Size with TotalKB := s.Size.TotalKB + r.SizeKB }
        Engagement := eng
        Languages := langs
        Topics := topics
        Licenses := lics
        Activity := s.Activity
        Enrichment := enr }
    newestUpdate := newestUpdate
    newestPush := newestPush
    oldestCreated := oldestCreated
    oldestUpdate := oldestUpdate }

/-- The summary's zero value plus the generation timestamp and the three
map initialisations performed before the loop. -/
def initAggState (now : String) : AggState :=
  { sum :=
      { GeneratedAt := now
        RepoCounts := ⟨0, 0, 0, 0, 0, 0, 0⟩
        Size := ⟨0, ""⟩
        Engagement := ⟨0, 0, 0, 0⟩
        Languages := fun _ => 0
        Topics := fun _ => 0
        Licenses := fun _ => 0
        Activity := ⟨"", "", "", ""⟩
        Enrichment := ⟨0, 0, 0, 0, 0⟩ }
    newestUpdate := none
    newestPush := none
    oldestCreated := none
    oldestUpdate := none }

/-- The post-loop fixups: human-readable total size and the four
activity strings, each written only when its extremum was tracked. -/
def finalize (env : AggEnv) (st : AggState) : Summary :=
  let s := st.sum
  { s with
      Size := { s.Size with Human := env.human s.Size.TotalKB }
      Activity :=
        { MostRecentUpdate := match st.newestUpdate with
            | none => s.Activity.MostRecentUpdate
            | some t => env.format t
          MostRecentPush := match st.newestPush with
            | none => s.Activity.MostRecentPush
            | some t => env.format t
          OldestCreated := match st.oldestCreated with
            | none => s.Activity.OldestCreated
            | some t => env.format t
          OldestUpdate := match st.oldestUpdate with
            | none => s.Activity.OldestUpdate
            | some t => env.format t } }

/-- The whole aggregation: single pass over the enriched record list,
then the post-loop fixups. -/
def buildSummary (env : AggEnv) (out : List OutRepo) : Summary :=
  finalize env (out.foldl (stepRepo env.parse) (initAggState env.now))

/-- Specification-level latest instant of a list of (already parsed)
timestamps: the fold the spec describes, over parseable values only. -/
def specLatest (ts : List Int) : Option Int :=
  ts.foldl (fun acc t => some (max (acc.getD t) t)) none

/-- Specification-level earliest instant of a list of (already parsed)
timestamps. -/
def specEarliest (ts : List Int) : Option Int :=
  ts.foldl (fun acc t => some (min (acc.getD t) t)) none

/-- Render a tracked time extremum the way the summary does: empty
string when never set, else the formatted instant. -/
def timeString (env : AggEnv) : Option Int → String
  | none => ""
  | some t => env.format t

/-- A tiny concrete timestamp parser for evaluating the theorems on
inputs: a finite table of known instants, anything else malformed. -/
def exParse : String → Option Int
  | "1" => some 1
  | "5" => some 5
  | "7" => some 7
  | _ => none

/-- A concrete aggregation environment for evaluating the theorems on
inputs. -/
def exAggEnv : AggEnv :=
  { parse := exParse
    format := toString
    human := toString
    now := "2026-01-01T00:00:00Z" }

/-- A base record as `main` constructs it before enrichment: all
enrichment fields at their Go zero values. -/
def baseRepo : OutRepo :=
  { FullName := "me/repo"
    Private := false
    Fork := false
    Archived := false
    OwnerType := "User"
    Language := "Go"
    Topics := []
    License := ""
    SizeKB := 1
    Stars := 2
    Forks := 1
    Watchers := 2
    CreatedAt := "1"
    UpdatedAt := "5"
    PushedAt := "7"
    LastCommitAt := ""
    LastCommitMessage := ""
    WeeklyCommits52W := []
    WeeklyStats52W := []
    LanguageBreakdown := []
    TopContributors := []
    ContributorCount := 0
    TotalCommits := 0
    StatsCachePending := false }

/-- A second concrete record: a different language and a nonzero commit
total. -/
def tsRepo : OutRepo :=
  { baseRepo with
    TotalCommits := 7
    Language := "TypeScript" }

/-- C7: on a successful response carrying an empty commit list,
`fetchLastCommit` returns empty date and message fields and no error —
zero commits is not an error. -/
theorem fetchLastCommit_zero_commits (s : Nat) (h1 : 200 ≤ s) (h2 : s < 300) :
    fetchLastCommit (.http s (some [])) = .ok ("", "") := by
  simp only [fetchLastCommit]
  rw [if_neg (by omega)]

/-- Witness for C7 at status 200. -/
theorem fetchLastCommit_zero_commits_witness :
    fetchLastCommit (.http 200 (some [])) = .ok ("", "") :=
  fetchLastCommit_zero_commits 200 (by decide) (by decide)

/-- C6: on a successful response whose head commit is `c`, the returned
message is the first `msgCap` (= 100) characters of `c`'s message
followed by `"..."` when the message exceeds the cap, and the message
unchanged when at or under the cap; the date is returned as-is. -/
theorem fetchLastCommit_truncation (s : Nat) (c : CommitListItem)
    (rest : List CommitListItem) (h1 : 200 ≤ s) (h2 : s < 300) :
    (c.Message.length > msgCap →
      fetchLastCommit (.http s (some (c :: rest))) =
        .ok (c.Date, c.Message.take msgCap ++ "...")) ∧
    (c.Message.length ≤ msgCap →
      fetchLastCommit (.http s (some (c :: rest))) = .ok (c.Date, c.Message)) := by
  simp only [fetchLastCommit]
  rw [if_neg (by omega)]
  constructor
  · intro hlong
    simp only [if_pos hlong]
  · intro hshort
    rw [if_neg (by omega)]

/-- Witness for C6: a 101-character message is truncated, a short one is
kept. -/
theorem fetchLastCommit_truncation_witness :
    fetchLastCommit (.http 200 (some
        [⟨"sha", "2024-01-01T00:00:00Z", String.mk (List.replicate 101 'a')⟩])) =
      .ok ("2024-01-01T00:00:00Z",
        (String.mk (List.replicate 101 'a')).take msgCap ++ "...") ∧
    fetchLastCommit (.http 200 (some [⟨"sha", "2024-01-01T00:00:00Z", "hi"⟩])) =
      .ok ("2024-01-01T00:00:00Z", "hi") :=
  ⟨(fetchLastCommit_truncation 200 _ [] (by decide) (by decide)).1 (by decide),
   (fetchLastCommit_truncation 200 _ [] (by decide) (by decide)).2 (by decide)⟩

/-- C9: the contributors request always carries the fixed page-size cap
10; on a successful response the returned count equals the number of
contributors received, and a full page (exactly the cap) reports the cap
itself as the count. -/
theorem fetchContributors_cap (fn : String) (s : Nat) (cs : List Contributor)
    (h1 : 200 ≤ s) (h2 : s < 300) :
    (contributorsRequest fn).perPage = 10 ∧
    fetchContributors (.http s (some cs)) = .ok (cs, (cs.length : Int)) ∧
    (cs.length = contributorsPerPage →
      fetchContributors (.http s (some cs)) =
        .ok (cs, (contributorsPerPage : Int))) := by
  refine ⟨rfl, ?_, ?_⟩
  · simp only [fetchContributors]
    rw [if_neg (by omega)]
    by_cases hc : cs.length = contributorsPerPage
    · simp [hc]
    · simp only [if_neg hc]
  · intro hfull
    simp only [fetchContributors]
    rw [if_neg (by omega)]
    simp only [if_pos hfull]

/-- Witness for C9: a full page of 10 contributors reports count 10. -/
theorem fetchContributors_cap_witness :
    (contributorsRequest "o/r").perPage = 10 ∧
    fetchContributors (.http 200 (some (List.replicate 10 ⟨"u", 1⟩))) =
      .ok (List.replicate 10 ⟨"u", 1⟩, ((List.replicate 10
        (⟨"u", 1⟩ : Contributor)).length : Int)) ∧
    fetchContributors (.http 200 (some (List.replicate 10 ⟨"u", 1⟩))) =
      .ok (List.replicate 10 ⟨"u", 1⟩, (contributorsPerPage : Int)) := by
  have h := fetchContributors_cap "o/r" 200 (List.replicate 10 ⟨"u", 1⟩)
    (by decide) (by decide)
  exact ⟨h.1, h.2.1, h.2.2 (by decide)⟩

/-- A 202 answer before the last table entry makes the loop sleep and
retry with the next attempt. -/
theorem activityLoop_202_step (resp : Nat → HttpResult (List WeeklyStat))
    (fuel attempt : Nat) (b : Option (List WeeklyStat))
    (hb : resp attempt = .http 202 b) (hne : attempt ≠ backoffsMs.length) :
    activityLoop resp (fuel + 1) attempt = activityLoop resp fuel (attempt + 1) := by
  simp [activityLoop, hb, hne]

/-- A 202 answer on the last table entry terminates in the pending
state. -/
theorem activityLoop_202_last (resp : Nat → HttpResult (List WeeklyStat))
    (fuel : Nat) (b : Option (List WeeklyStat))
    (hb : resp backoffsMs.length = .http 202 b) :
    activityLoop resp (fuel + 1) backoffsMs.length = ⟨[], true, none⟩ := by
  simp [activityLoop, hb]

/-- Any non-202 answer terminates the loop on the spot. -/
theorem activityLoop_decisive (resp : Nat → HttpResult (List WeeklyStat))
    (fuel attempt s : Nat) (body : Option (List WeeklyStat))
    (hr : resp attempt = .http s body) (hne : s ≠ 202) :
    activityLoop resp (fuel + 1) attempt =
      (if s < 200 ∨ 300 ≤ s then ⟨[], false, some (.httpErr s)⟩
       else match body with
         | none => ⟨[], false, some .parseErr⟩
         | some weeks => ⟨weeks, false, none⟩) := by
  cases body <;> simp [activityLoop, hr, hne]

/-- Skipping a 202 prefix: when every attempt before `k` answered 202,
the whole fetch equals the loop resumed at attempt `k` with the
remaining fuel. -/
theorem fetchActivity_skip202 (resp : Nat → HttpResult (List WeeklyStat))
    (k : Nat) (hk : k ≤ backoffsMs.length)
    (h202 : ∀ j, j < k → ∃ b, resp j = .http 202 b) :
    fetchCommitActivity52W resp =
      activityLoop resp (backoffsMs.length + 1 - k) k := by
  induction k with
  | zero => rfl
  | succ n ih =>
    have hn : n ≤ backoffsMs.length := Nat.le_of_succ_le hk
    have heq := ih hn (fun j hj => h202 j (Nat.lt_succ_of_lt hj))
    obtain ⟨b, hb⟩ := h202 n (Nat.lt_succ_self n)
    have hne : n ≠ backoffsMs.length := by omega
    have hfuel : backoffsMs.length + 1 - n =
        (backoffsMs.length + 1 - (n + 1)) + 1 := by omega
    rw [heq, hfuel, activityLoop_202_step resp _ n b hb hne]

/-- C1: if the activity endpoint answers 202 on every attempt through
the last backoff-table entry (five requests: the table has the four
entries 700ms, 1200ms, 2000ms, 3000ms), `fetchCommitActivity52W` ends
pending with empty weeks and no error; if some attempt, after a prefix
of 202s, answers a ready 2xx (other than the 202 computing status) with
a parseable body, it ends not-pending with exactly that parsed weekly
sequence — in particular of length 52 when the body has the expected 52
entries. -/
theorem fetchCommitActivity52W_pending_and_ready
    (resp : Nat → HttpResult (List WeeklyStat)) :
    (backoffsMs = [700, 1200, 2000, 3000] ∧
      ((∀ k, k ≤ backoffsMs.length → ∃ b, resp k = .http 202 b) →
        fetchCommitActivity52W resp = ⟨[], true, none⟩)) ∧
    (∀ k s ws, k ≤ backoffsMs.length →
      (∀ j, j < k → ∃ b, resp j = .http 202 b) →
      resp k = .http s (some ws) → 200 ≤ s → s < 300 → s ≠ 202 →
      fetchCommitActivity52W resp = ⟨ws, false, none⟩ ∧
      (ws.length = 52 → (fetchCommitActivity52W resp).weeks.length = 52)) := by
  constructor
  · refine ⟨rfl, fun hall => ?_⟩
    obtain ⟨b, hb⟩ := hall backoffsMs.length (le_refl _)
    rw [fetchActivity_skip202 resp backoffsMs.length (le_refl _)
      (fun j hj => hall j (Nat.le_of_lt hj))]
    have : backoffsMs.length + 1 - backoffsMs.length = 0 + 1 := by omega
    rw [this, activityLoop_202_last resp 0 b hb]
  · intro k s ws hk h202 hr h200 h300 hne
    have hmain : fetchCommitActivity52W resp = ⟨ws, false, none⟩ := by
      rw [fetchActivity_skip202 resp k hk h202]
      have hfuel : backoffsMs.length + 1 - k =
          (backoffsMs.length - k) + 1 := by omega
      rw [hfuel, activityLoop_decisive resp _ k s (some ws) hr hne]
      rw [if_neg (by omega)]
    exact ⟨hmain, fun h52 => by rw [hmain]; exact h52⟩

/-- Witness for C1: a run answering 202 throughout ends pending; a run
whose second attempt is ready ends with that week list. -/
theorem fetchCommitActivity52W_pending_and_ready_witness :
    fetchCommitActivity52W (fun _ => .http 202 (some [])) = ⟨[], true, none⟩ ∧
    fetchCommitActivity52W (fun k => if k = 0 then .http 202 none
        else .http 200 (some [⟨3, 1700000000, []⟩])) =
      ⟨[⟨3, 1700000000, []⟩], false, none⟩ :=
  ⟨((fetchCommitActivity52W_pending_and_ready (fun _ => .http 202 (some []))).1).2
      (fun k _ => ⟨some [], rfl⟩),
   (((fetchCommitActivity52W_pending_and_ready (fun k => if k = 0 then .http 202 none
        else .http 200 (some [⟨3, 1700000000, []⟩]))).2) 1 200 [⟨3, 1700000000, []⟩]
      (by decide)
      (fun j hj => ⟨none, by interval_cases j; rfl⟩)
      rfl (by decide) (by decide) (by decide)).1⟩

/-- C5: after a prefix of 202 answers, an answer with a non-2xx status
other than 202 makes `fetchCommitActivity52W` terminate on that very
attempt with an `httpErr` error, empty weeks and pending false; no
further exchange matters — any response function agreeing up to that
attempt yields the same result. -/
theorem fetchCommitActivity52W_hard_error
    (resp : Nat → HttpResult (List WeeklyStat)) (k s : Nat)
    (body : Option (List WeeklyStat)) (hk : k ≤ backoffsMs.length)
    (h202 : ∀ j, j < k → ∃ b, resp j = .http 202 b)
    (hr : resp k = .http s body) (hbad : s < 200 ∨ 300 ≤ s) (hne : s ≠ 202) :
    fetchCommitActivity52W resp = ⟨[], false, some (.httpErr s)⟩ ∧
    ∀ resp2 : Nat → HttpResult (List WeeklyStat),
      (∀ j, j ≤ k → resp2 j = resp j) →
      fetchCommitActivity52W resp2 = ⟨[], false, some (.httpErr s)⟩ := by
  have hgen : ∀ resp2 : Nat → HttpResult (List WeeklyStat),
      (∀ j, j ≤ k → resp2 j = resp j) →
      fetchCommitActivity52W resp2 = ⟨[], false, some (.httpErr s)⟩ := by
    intro resp2 hagree
    rw [fetchActivity_skip202 resp2 k hk
      (fun j hj => (hagree j (Nat.le_of_lt hj)) ▸ h202 j hj)]
    have hfuel : backoffsMs.length + 1 - k = (backoffsMs.length - k) + 1 := by
      omega
    rw [hfuel, activityLoop_decisive resp2 _ k s body
      ((hagree k (le_refl k)).trans hr) hne]
    rw [if_pos hbad]
  exact ⟨hgen resp (fun _ _ => rfl), hgen⟩

/-- Witness for C5: a 404 on the first attempt ends with the error, and
a run differing only from attempt 1 on behaves identically. -/
theorem fetchCommitActivity52W_hard_error_witness :
    fetchCommitActivity52W (fun _ => .http 404 none) =
      ⟨[], false, some (.httpErr 404)⟩ ∧
    fetchCommitActivity52W (fun k => if k = 0 then .http 404 none
        else .http 200 (some [])) = ⟨[], false, some (.httpErr 404)⟩ := by
  have h := fetchCommitActivity52W_hard_error (fun _ => .http 404 none)
    0 404 none (by decide) (fun j hj => absurd hj (Nat.not_lt_zero j))
    rfl (by decide) (by decide)
  exact ⟨h.1, h.2 _ (fun j hj => by interval_cases j; rfl)⟩

/-- Full field characterization of one enrichment job: every enrichment
field of the output depends only on its own enricher's outcome (and the
input record), never on the other three outcomes. -/
theorem enrichJob_fields (r : OutRepo) (j : JobResults) :
    ((enrichJob r j).LastCommitAt =
      match j.last with | .ok dm => dm.1 | .error _ => r.LastCommitAt) ∧
    ((enrichJob r j).LastCommitMessage =
      match j.last with | .ok dm => dm.2 | .error _ => r.LastCommitMessage) ∧
    ((enrichJob r j).WeeklyStats52W =
      match j.activity.err with
      | none => j.activity.weeks | some _ => r.WeeklyStats52W) ∧
    ((enrichJob r j).StatsCachePending =
      match j.activity.err with
      | none => j.activity.pending | some _ => r.StatsCachePending) ∧
    ((enrichJob r j).WeeklyCommits52W =
      match j.activity.err with
      | none => j.activity.weeks.map (·.Total) | some _ => r.WeeklyCommits52W) ∧
    ((enrichJob r j).TotalCommits =
      match j.activity.err with
      | none => (j.activity.weeks.map (·.Total)).sum
      | some _ => r.TotalCommits) ∧
    ((enrichJob r j).LanguageBreakdown =
      match j.langs with
      | .ok langs => if langs.length > 0 then langs else r.LanguageBreakdown
      | .error _ => r.LanguageBreakdown) ∧
    ((enrichJob r j).TopContributors =
      match j.contribs with | .ok cn => cn.1 | .error _ => r.TopContributors) ∧
    ((enrichJob r j).ContributorCount =
      match j.contribs with | .ok cn => cn.2 | .error _ => r.ContributorCount) := by
  rcases j with ⟨jl, ⟨ws, pend, jerr⟩, jg, jc⟩
  rcases jl with el | dm <;> rcases jerr with _ | e2 <;>
    rcases jg with e3 | langs <;> rcases jc with e4 | cn <;>
    simp_all [enrichJob, apply_ite OutRepo.LastCommitAt,
      apply_ite OutRepo.LastCommitMessage, apply_ite OutRepo.WeeklyStats52W,
      apply_ite OutRepo.StatsCachePending, apply_ite OutRepo.WeeklyCommits52W,
      apply_ite OutRepo.TotalCommits, apply_ite OutRepo.LanguageBreakdown,
      apply_ite OutRepo.TopContributors, apply_ite OutRepo.ContributorCount]

/-- C4: on a base record (all enrichment fields at their zero values),
each erroring enricher leaves exactly its own fields at zero, while
every other enricher's fields are still written according to that
enricher's own outcome — the job never aborts early. -/
theorem enrichJob_error_isolation (r : OutRepo) (j : JobResults)
    (h1 : r.LastCommitAt = "") (h2 : r.LastCommitMessage = "")
    (h3 : r.WeeklyStats52W = []) (h4 : r.WeeklyCommits52W = [])
    (h5 : r.TotalCommits = 0) (h6 : r.StatsCachePending = false)
    (h7 : r.LanguageBreakdown = []) (h8 : r.TopContributors = [])
    (h9 : r.ContributorCount = 0) :
    (∀ e, j.last = .error e → (enrichJob r j).LastCommitAt = "" ∧
      (enrichJob r j).LastCommitMessage = "") ∧
    (∀ dm, j.last = .ok dm → (enrichJob r j).LastCommitAt = dm.1 ∧
      (enrichJob r j).LastCommitMessage = dm.2) ∧
    (∀ e, j.activity.err = some e → (enrichJob r j).WeeklyStats52W = [] ∧
      (enrichJob r j).WeeklyCommits52W = [] ∧
      (enrichJob r j).TotalCommits = 0 ∧
      (enrichJob r j).StatsCachePending = false) ∧
    (j.activity.err = none → (enrichJob r j).WeeklyStats52W = j.activity.weeks ∧
      (enrichJob r j).StatsCachePending = j.activity.pending ∧
      (enrichJob r j).WeeklyCommits52W = j.activity.weeks.map (·.Total) ∧
      (enrichJob r j).TotalCommits = (j.activity.weeks.map (·.Total)).sum) ∧
    (∀ e, j.langs = .error e → (enrichJob r j).LanguageBreakdown = []) ∧
    (∀ langs, j.langs = .ok langs → (enrichJob r j).LanguageBreakdown =
      if langs.length > 0 then langs else []) ∧
    (∀ e, j.contribs = .error e → (enrichJob r j).TopContributors = [] ∧
      (enrichJob r j).ContributorCount = 0) ∧
    (∀ cn, j.contribs = .ok cn → (enrichJob r j).TopContributors = cn.1 ∧
      (enrichJob r j).ContributorCount = cn.2) := by
  obtain ⟨c1, c2, c3, c4, c5, c6, c7, c8, c9⟩ := enrichJob_fields r j
  refine ⟨fun e he => ?_, fun dm hdm => ?_, fun e he => ?_, fun he => ?_,
    fun e he => ?_, fun langs hlangs => ?_, fun e he => ?_, fun cn hcn => ?_⟩
  · rw [c1, c2, he, h1, h2]; exact ⟨rfl, rfl⟩
  · rw [c1, c2, hdm]; exact ⟨rfl, rfl⟩
  · rw [c3, c5, c6, c4, he, h3, h4, h5, h6]; exact ⟨rfl, rfl, rfl, rfl⟩
  · rw [c3, c4, c5, c6, he]; exact ⟨rfl, rfl, rfl, rfl⟩
  · rw [c7, he, h7]
  · rw [c7, hlangs, h7]
  · rw [c8, c9, he, h8, h9]; exact ⟨rfl, rfl⟩
  · rw [c8, c9, hcn]; exact ⟨rfl, rfl⟩

/-- Witness for C4: with a failing last-commit call and succeeding
activity, languages and contributors calls, the last-commit fields stay
zero while the other fields are filled. -/
theorem enrichJob_error_isolation_witness :
    (enrichJob baseRepo
        { last := .error .netErr
          activity := ⟨[⟨2, 1, []⟩], false, none⟩
          langs := .ok [("Go", 10)]
          contribs := .ok ([⟨"u", 3⟩], 1) }).LastCommitAt = "" ∧
    (enrichJob baseRepo
        { last := .error .netErr
          activity := ⟨[⟨2, 1, []⟩], false, none⟩
          langs := .ok [("Go", 10)]
          contribs := .ok ([⟨"u", 3⟩], 1) }).WeeklyStats52W = [⟨2, 1, []⟩] ∧
    (enrichJob baseRepo
        { last := .error .netErr
          activity := ⟨[⟨2, 1, []⟩], false, none⟩
          langs := .ok [("Go", 10)]
          contribs := .ok ([⟨"u", 3⟩], 1) }).TopContributors = [⟨"u", 3⟩] := by
  have h := enrichJob_error_isolation baseRepo
    { last := .error .netErr
      activity := ⟨[⟨2, 1, []⟩], false, none⟩
      langs := .ok [("Go", 10)]
      contribs := .ok ([⟨"u", 3⟩], 1) }
    rfl rfl rfl rfl rfl rfl rfl rfl rfl
  exact ⟨(h.1 .netErr rfl).1, (h.2.2.2.1 rfl).1, (h.2.2.2.2.2.2.2 _ rfl).1⟩

/-- `finalize` only touches the `Size.Human` and `Activity` fields. -/
theorem finalize_proj (env : AggEnv) (st : AggState) :
    (finalize env st).Engagement = st.sum.Engagement ∧
    (finalize env st).Languages = st.sum.Languages ∧
    (finalize env st).RepoCounts = st.sum.RepoCounts ∧
    (finalize env st).Enrichment = st.sum.Enrichment :=
  ⟨rfl, rfl, rfl, rfl⟩

/-- The aggregation loop threads `Engagement.TotalCommits` as a running
sum of the records' `TotalCommits`. -/
theorem foldl_step_TotalCommits (p : String → Option Int)
    (out : List OutRepo) : ∀ st : AggState,
    (out.foldl (stepRepo p) st).sum.Engagement.TotalCommits =
      st.sum.Engagement.TotalCommits + (out.map OutRepo.TotalCommits).sum := by
  induction out with
  | nil => intro st; simp
  | cons r out ih =>
    intro st
    rw [List.foldl_cons, ih]
    simp [stepRepo]
    omega

/-- The aggregation loop counts one `RepoCounts.Total` per record. -/
theorem foldl_step_Total (p : String → Option Int)
    (out : List OutRepo) : ∀ st : AggState,
    (out.foldl (stepRepo p) st).sum.RepoCounts.Total =
      st.sum.RepoCounts.Total + (out.length : Int) := by
  induction out with
  | nil => intro st; simp
  | cons r out ih =>
    intro st
    rw [List.foldl_cons, ih]
    simp [stepRepo]
    omega

/-- The aggregation loop threads the language frequency map: for a
non-empty key the count rises by one exactly on records whose
`Language` equals the key. -/
theorem foldl_step_Languages (p : String → Option Int) (k : String)
    (hk : k ≠ "") (out : List OutRepo) : ∀ st : AggState,
    (out.foldl (stepRepo p) st).sum.Languages k =
      st.sum.Languages k + (out.countP (fun r => r.Language == k) : Int) := by
  induction out with
  | nil => intro st; simp
  | cons r out ih =>
    intro st
    rw [List.foldl_cons, ih, List.countP_cons]
    by_cases hrk : r.Language = k
    · simp [stepRepo, bump, hrk, hk]
      omega
    · by_cases hr : r.Language = ""
      · simp [stepRepo, bump, hr, Ne.symm hk, hrk]
      · simp [stepRepo, bump, hr, hrk, Ne.symm hrk]

/-- C3: the summary's total commit count is the sum of `TotalCommits`
over all records, and for every non-empty language key the summary's
language count is the number of records whose `Language` equals that
key. -/
theorem summary_commits_and_languages (env : AggEnv) (out : List OutRepo) :
    (buildSummary env out).Engagement.TotalCommits =
      (out.map OutRepo.TotalCommits).sum ∧
    ∀ k, k ≠ "" → (buildSummary env out).Languages k =
      (out.countP (fun r => r.Language == k) : Int) := by
  constructor
  · rw [buildSummary, (finalize_proj env _).1, foldl_step_TotalCommits]
    simp [initAggState]
  · intro k hk
    rw [buildSummary, (finalize_proj env _).2.1, foldl_step_Languages env.parse k hk]
    simp [initAggState]

/-- Witness for C3: on two concrete records the totals and the "Go"
language count come out right. -/
theorem summary_commits_and_languages_witness :
    (buildSummary exAggEnv [baseRepo, tsRepo]).Engagement.TotalCommits =
      ([baseRepo, tsRepo].map OutRepo.TotalCommits).sum ∧
    ("Go" ≠ "") ∧
    (buildSummary exAggEnv [baseRepo, tsRepo]).Languages "Go" =
      (([baseRepo, tsRepo].countP (fun r => r.Language == "Go")) : Int) :=
  ⟨(summary_commits_and_languages exAggEnv _).1, by decide,
    (summary_commits_and_languages exAggEnv _).2 "Go" (by decide)⟩

/-- Every terminal state of the retry loop satisfies the pending/error
exclusion: pending implies empty weeks and no error, and an error
implies not pending. -/
theorem activityLoop_invariant (resp : Nat → HttpResult (List WeeklyStat)) :
    ∀ fuel attempt,
    ((activityLoop resp fuel attempt).pending = true →
      (activityLoop resp fuel attempt).weeks = [] ∧
      (activityLoop resp fuel attempt).err = none) ∧
    ((activityLoop resp fuel attempt).err ≠ none →
      (activityLoop resp fuel attempt).pending = false) := by
  intro fuel
  induction fuel with
  | zero => intro attempt; simp [activityLoop]
  | succ n ih =>
    intro attempt
    simp only [activityLoop]
    cases hr : resp attempt with
    | netErr => simp
    | http s body =>
      by_cases h202 : s = 202
      · by_cases hl : attempt = backoffsMs.length
        · simp [h202, hl]
        · simpa [h202, hl] using ih (attempt + 1)
      · by_cases hbad : s < 200 ∨ 300 ≤ s
        · simp [h202, hbad]
        · cases body <;> simp [h202, hbad]

/-- The coverage counters never double-count: given the per-record
exclusion (a pending record has no weekly data), the stats-coverage and
stats-pending counters together never exceed one per record. -/
theorem foldl_step_counters (p : String → Option Int) (out : List OutRepo) :
    ∀ st : AggState,
    (∀ r ∈ out, r.StatsCachePending = true → r.WeeklyCommits52W = []) →
    (out.foldl (stepRepo p) st).sum.Enrichment.ReposWithStats52W +
      (out.foldl (stepRepo p) st).sum.Enrichment.ReposStatsPending ≤
    st.sum.Enrichment.ReposWithStats52W +
      st.sum.Enrichment.ReposStatsPending + (out.length : Int) := by
  induction out with
  | nil => intro st _; simp
  | cons r out ih =>
    intro st hinv
    rw [List.foldl_cons]
    have hrec := ih (stepRepo p st r)
      (fun q hq => hinv q (List.mem_cons_of_mem r hq))
    have hr := hinv r (List.mem_cons_self r out)
    by_cases hp : r.StatsCachePending = true
    · have hw : r.WeeklyCommits52W = [] := hr hp
      have hstep : (stepRepo p st r).sum.Enrichment.ReposWithStats52W =
          st.sum.Enrichment.ReposWithStats52W ∧
          (stepRepo p st r).sum.Enrichment.ReposStatsPending =
          st.sum.Enrichment.ReposStatsPending + 1 := by
        constructor <;> simp [stepRepo, hw, hp]
      rw [hstep.1, hstep.2] at hrec
      simp only [List.length_cons]
      push_cast
      omega
    · have hp0 : r.StatsCachePending = false := by
        cases h : r.StatsCachePending
        · rfl
        · exact absurd h hp
      have hstep : (stepRepo p st r).sum.Enrichment.ReposWithStats52W ≤
          st.sum.Enrichment.ReposWithStats52W + 1 ∧
          (stepRepo p st r).sum.Enrichment.ReposStatsPending =
          st.sum.Enrichment.ReposStatsPending := by
        constructor
        · by_cases hw : 0 < r.WeeklyCommits52W.length <;>
            simp [stepRepo, hw]
        · simp [stepRepo, hp0]
      have h1 := hstep.1
      rw [hstep.2] at hrec
      simp only [List.length_cons]
      push_cast
      omega

/-- C10: pending terminal results of `fetchCommitActivity52W` carry
empty weeks and no error, and erroring results are never pending; a
record enriched from such a result therefore has empty
`WeeklyCommits52W` whenever `StatsCachePending` is set, and no record
can feed both the `ReposWithStats52W` and `ReposStatsPending` counters
— their sum never exceeds the record count. -/
theorem activity_pending_exclusion :
    (∀ resp : Nat → HttpResult (List WeeklyStat),
      ((fetchCommitActivity52W resp).pending = true →
        (fetchCommitActivity52W resp).weeks = [] ∧
        (fetchCommitActivity52W resp).err = none) ∧
      ((fetchCommitActivity52W resp).err ≠ none →
        (fetchCommitActivity52W resp).pending = false)) ∧
    (∀ (r : OutRepo) (j : JobResults) (resp : Nat → HttpResult (List WeeklyStat)),
      r.WeeklyCommits52W = [] → r.StatsCachePending = false →
      j.activity = fetchCommitActivity52W resp →
      (enrichJob r j).StatsCachePending = true →
      (enrichJob r j).WeeklyCommits52W = []) ∧
    (∀ (env : AggEnv) (out : List OutRepo),
      (∀ r ∈ out, r.StatsCachePending = true → r.WeeklyCommits52W = []) →
      (buildSummary env out).Enrichment.ReposWithStats52W +
        (buildSummary env out).Enrichment.ReposStatsPending ≤
        (out.length : Int)) := by
  refine ⟨fun resp => activityLoop_invariant resp (backoffsMs.length + 1) 0,
    ?_, ?_⟩
  · intro r j resp hw hp hact hpend
    obtain ⟨-, -, -, c4, c5, -, -, -, -⟩ := enrichJob_fields r j
    rcases herr : j.activity.err with - | e
    · have hpend2 : j.activity.pending = true := by
        rw [c4] at hpend
        simpa [herr] using hpend
      rw [hact] at hpend2 herr
      have hweeks : (fetchCommitActivity52W resp).weeks = [] :=
        ((activityLoop_invariant resp (backoffsMs.length + 1) 0).1 hpend2).1
      rw [c5, hact]
      simp only [herr, hweeks, List.map_nil]
    · rw [c4, herr, hp] at hpend
      exact absurd hpend (by simp)
  · intro env out hinv
    have := foldl_step_counters env.parse out (initAggState env.now) hinv
    rw [buildSummary, (finalize_proj env _).2.2.2]
    simpa [initAggState] using this

/-- Witness for C10: an all-202 run is pending with empty weeks; the
enriched record keeps empty weekly data; and a one-record list with a
pending record bounds the counter sum by 1. -/
theorem activity_pending_exclusion_witness :
    ((fetchCommitActivity52W (fun _ => .http 202 none)).pending = true →
      (fetchCommitActivity52W (fun _ => .http 202 none)).weeks = [] ∧
      (fetchCommitActivity52W (fun _ => .http 202 none)).err = none) ∧
    (enrichJob baseRepo
      { last := .error .netErr
        activity := fetchCommitActivity52W (fun _ => .http 202 none)
        langs := .error .netErr
        contribs := .error .netErr }).WeeklyCommits52W = [] ∧
    (buildSummary exAggEnv [{ baseRepo with StatsCachePending := true }]).Enrichment.ReposWithStats52W +
      (buildSummary exAggEnv [{ baseRepo with StatsCachePending := true }]).Enrichment.ReposStatsPending ≤
      (([{ baseRepo with StatsCachePending := true }] : List OutRepo).length : Int) := by
  have h := activity_pending_exclusion
  refine ⟨(h.1 (fun _ => .http 202 none)).1, ?_, ?_⟩
  · exact h.2.1 baseRepo _ (fun _ => .http 202 none) rfl rfl rfl (by decide)
  · exact h.2.2 exAggEnv [{ baseRepo with StatsCachePending := true }]
      (fun r hr hp => by
        simp only [List.mem_singleton] at hr
        rw [hr]
        rfl)

/-- The Go-style "keep the later instant" update equals a `max` step. -/
theorem newer_eq_max (acc : Option Int) (t : Int) :
    (match acc with
      | none => some t
      | some cur => if t > cur then some t else some cur) =
    some (max (acc.getD t) t) := by
  cases acc with
  | none => simp
  | some cur =>
    simp only [Option.getD_some]
    by_cases h : t > cur
    · rw [if_pos h, max_eq_right (le_of_lt h)]
    · rw [if_neg h, max_eq_left (not_lt.mp h)]

/-- The Go-style "keep the earlier instant" update equals a `min` step. -/
theorem older_eq_min (acc : Option Int) (t : Int) :
    (match acc with
      | none => some t
      | some cur => if t < cur then some t else some cur) =
    some (min (acc.getD t) t) := by
  cases acc with
  | none => simp
  | some cur =>
    simp only [Option.getD_some]
    by_cases h : t < cur
    · rw [if_pos h, min_eq_right (le_of_lt h)]
    · rw [if_neg h, min_eq_left (not_lt.mp h)]

/-- The aggregation loop's four time extrema are folds over exactly the
parseable timestamps of the traversed records; the summary's stored
`Activity` strings are untouched by the loop. -/
theorem foldl_step_times (p : String → Option Int) (out : List OutRepo) :
    ∀ st : AggState,
    (out.foldl (stepRepo p) st).newestUpdate =
      (out.filterMap (fun r => p r.UpdatedAt)).foldl
        (fun acc t => some (max (acc.getD t) t)) st.newestUpdate ∧
    (out.foldl (stepRepo p) st).oldestUpdate =
      (out.filterMap (fun r => p r.UpdatedAt)).foldl
        (fun acc t => some (min (acc.getD t) t)) st.oldestUpdate ∧
    (out.foldl (stepRepo p) st).newestPush =
      (out.filterMap (fun r => p r.PushedAt)).foldl
        (fun acc t => some (max (acc.getD t) t)) st.newestPush ∧
    (out.foldl (stepRepo p) st).oldestCreated =
      (out.filterMap (fun r => p r.CreatedAt)).foldl
        (fun acc t => some (min (acc.getD t) t)) st.oldestCreated ∧
    (out.foldl (stepRepo p) st).sum.Activity = st.sum.Activity := by
  induction out with
  | nil => intro st; exact ⟨rfl, rfl, rfl, rfl, rfl⟩
  | cons r out ih =>
    intro st
    rw [List.foldl_cons]
    obtain ⟨i1, i2, i3, i4, i5⟩ := ih (stepRepo p st r)
    refine ⟨?_, ?_, ?_, ?_, ?_⟩
    · rw [i1]
      cases hu : p r.UpdatedAt <;>
        simp [stepRepo, hu, List.filterMap_cons, newer_eq_max]
    · rw [i2]
      cases hu : p r.UpdatedAt <;>
        simp [stepRepo, hu, List.filterMap_cons, older_eq_min]
    · rw [i3]
      cases hu : p r.PushedAt <;>
        simp [stepRepo, hu, List.filterMap_cons, newer_eq_max]
    · rw [i4]
      cases hu : p r.CreatedAt <;>
        simp [stepRepo, hu, List.filterMap_cons, older_eq_min]
    · exact i5

/-- When the loop left the stored activity strings at their initial
empty values, `finalize` renders each tracked extremum through
`timeString`. -/
theorem finalize_activity_fields (env : AggEnv) (st : AggState)
    (h : st.sum.Activity = ⟨"", "", "", ""⟩) :
    (finalize env st).Activity.MostRecentUpdate = timeString env st.newestUpdate ∧
    (finalize env st).Activity.MostRecentPush = timeString env st.newestPush ∧
    (finalize env st).Activity.OldestCreated = timeString env st.oldestCreated ∧
    (finalize env st).Activity.OldestUpdate = timeString env st.oldestUpdate := by
  refine ⟨?_, ?_, ?_, ?_⟩
  · cases hx : st.newestUpdate <;> simp [finalize, timeString, hx, h]
  · cases hx : st.newestPush <;> simp [finalize, timeString, hx, h]
  · cases hx : st.oldestCreated <;> simp [finalize, timeString, hx, h]
  · cases hx : st.oldestUpdate <;> simp [finalize, timeString, hx, h]

/-- C8: the summary's four activity timestamps are computed over exactly
the records whose timestamp strings parse — each equals the
specification-level extremum of the parsed values — and a record none of
whose timestamps parse leaves every activity field unchanged while the
rest of the aggregation still counts it. -/
theorem summary_timestamp_handling (env : AggEnv) (out : List OutRepo) :
    ((buildSummary env out).Activity.MostRecentUpdate =
      timeString env (specLatest (out.filterMap (fun r => env.parse r.UpdatedAt)))) ∧
    ((buildSummary env out).Activity.MostRecentPush =
      timeString env (specLatest (out.filterMap (fun r => env.parse r.PushedAt)))) ∧
    ((buildSummary env out).Activity.OldestCreated =
      timeString env (specEarliest (out.filterMap (fun r => env.parse r.CreatedAt)))) ∧
    ((buildSummary env out).Activity.OldestUpdate =
      timeString env (specEarliest (out.filterMap (fun r => env.parse r.UpdatedAt)))) ∧
    (∀ r : OutRepo, env.parse r.UpdatedAt = none → env.parse r.PushedAt = none →
      env.parse r.CreatedAt = none →
      (buildSummary env (out ++ [r])).Activity = (buildSummary env out).Activity ∧
      (buildSummary env (out ++ [r])).RepoCounts.Total =
        (buildSummary env out).RepoCounts.Total + 1 ∧
      (buildSummary env (out ++ [r])).Engagement.TotalCommits =
        (buildSummary env out).Engagement.TotalCommits + r.TotalCommits) := by
  obtain ⟨t1, t2, t3, t4, t5⟩ :=
    foldl_step_times env.parse out (initAggState env.now)
  have hA : (out.foldl (stepRepo env.parse)
      (initAggState env.now)).sum.Activity = ⟨"", "", "", ""⟩ := t5
  obtain ⟨f1, f2, f3, f4⟩ := finalize_activity_fields env _ hA
  refine ⟨?_, ?_, ?_, ?_, ?_⟩
  · rw [buildSummary, f1, t1]; rfl
  · rw [buildSummary, f2, t3]; rfl
  · rw [buildSummary, f3, t4]; rfl
  · rw [buildSummary, f4, t2]; rfl
  · intro r hU hP hC
    have happ : ∀ st : AggState,
        ((out ++ [r]).foldl (stepRepo env.parse) st) =
        stepRepo env.parse (out.foldl (stepRepo env.parse) st) r := by
      intro st; rw [List.foldl_append]; rfl
    refine ⟨?_, ?_, ?_⟩
    · rw [buildSummary, buildSummary, happ]
      set st := out.foldl (stepRepo env.parse) (initAggState env.now) with hst
      have e1 : (stepRepo env.parse st r).newestUpdate = st.newestUpdate := by
        simp [stepRepo, hU]
      have e2 : (stepRepo env.parse st r).oldestUpdate = st.oldestUpdate := by
        simp [stepRepo, hU]
      have e3 : (stepRepo env.parse st r).newestPush = st.newestPush := by
        simp [stepRepo, hP]
      have e4 : (stepRepo env.parse st r).oldestCreated = st.oldestCreated := by
        simp [stepRepo, hC]
      have e5 : (stepRepo env.parse st r).sum.Activity = st.sum.Activity := rfl
      simp only [finalize, e1, e2, e3, e4, e5]
    · rw [buildSummary, buildSummary, (finalize_proj env _).2.2.1,
        (finalize_proj env _).2.2.1, happ]
      simp [stepRepo]
    · rw [buildSummary, buildSummary, (finalize_proj env _).1,
        (finalize_proj env _).1, happ]
      simp [stepRepo]

/-- Witness for C8: with the integer-string codec, a record whose
timestamps do not parse is skipped for the activity extrema but still
counted. -/
theorem summary_timestamp_handling_witness :
    ((buildSummary exAggEnv [baseRepo]).Activity.MostRecentUpdate =
      timeString exAggEnv (specLatest ([baseRepo].filterMap
        (fun r => exAggEnv.parse r.UpdatedAt)))) ∧
    (exAggEnv.parse "bad" = none) ∧
    (buildSummary exAggEnv ([baseRepo] ++ [{ baseRepo with
        UpdatedAt := "bad"
        PushedAt := "bad"
        CreatedAt := "bad" }])).Activity =
      (buildSummary exAggEnv [baseRepo]).Activity ∧
    (buildSummary exAggEnv ([baseRepo] ++ [{ baseRepo with
        UpdatedAt := "bad"
        PushedAt := "bad"
        CreatedAt := "bad" }])).RepoCounts.Total =
      (buildSummary exAggEnv [baseRepo]).RepoCounts.Total + 1 := by
  have h := summary_timestamp_handling exAggEnv [baseRepo]
  have hbad : exAggEnv.parse "bad" = none := by decide
  have h5 := h.2.2.2.2 { baseRepo with
    UpdatedAt := "bad"
    PushedAt := "bad"
    CreatedAt := "bad" } hbad hbad hbad
  exact ⟨h.1, hbad, h5.1, h5.2.1⟩

/-- An in-range slot-write is a `List.set` with the enriched element. -/
theorem applyJob_in_range (env : Nat → JobResults) (arr : List OutRepo)
    (i : Nat) (hi : i < arr.length) :
    applyJob env arr i = arr.set i (enrichJob arr[i] (env i)) := by
  unfold applyJob
  rw [dif_pos hi]

/-- An out-of-range slot-write leaves the list unchanged. -/
theorem applyJob_oob (env : Nat → JobResults) (arr : List OutRepo)
    (i : Nat) (hi : ¬i < arr.length) :
    applyJob env arr i = arr := by
  unfold applyJob
  rw [dif_neg hi]

/-- Two slot-writes commute: each job reads and writes only its own
index, so the order in which two jobs complete does not matter. -/
theorem applyJob_comm (env : Nat → JobResults) (arr : List OutRepo)
    (i j : Nat) :
    applyJob env (applyJob env arr i) j = applyJob env (applyJob env arr j) i := by
  by_cases hij : i = j
  · rw [hij]
  · by_cases hi : i < arr.length
    · by_cases hj : j < arr.length
      · rw [applyJob_in_range env arr i hi, applyJob_in_range env arr j hj]
        have hi2 : i < (arr.set j (enrichJob arr[j] (env j))).length := by
          simpa using hi
        have hj2 : j < (arr.set i (enrichJob arr[i] (env i))).length := by
          simpa using hj
        rw [applyJob_in_range env _ j hj2, applyJob_in_range env _ i hi2]
        rw [List.getElem_set_ne hij hj2, List.getElem_set_ne (Ne.symm hij) hi2]
        exact List.set_comm _ _ arr hij
      · rw [applyJob_in_range env arr i hi, applyJob_oob env arr j hj]
        have hj2 : ¬j < (arr.set i (enrichJob arr[i] (env i))).length := by
          simpa using hj
        rw [applyJob_oob env _ j hj2, applyJob_in_range env arr i hi]
    · by_cases hj : j < arr.length
      · rw [applyJob_oob env arr i hi, applyJob_in_range env arr j hj]
        have hi2 : ¬i < (arr.set j (enrichJob arr[j] (env j))).length := by
          simpa using hi
        rw [applyJob_oob env _ i hi2]
      · rw [applyJob_oob env arr i hi, applyJob_oob env arr j hj,
          applyJob_oob env arr i hi]

/-- C2: any two completion orders that each run every record index
exactly once produce the same enriched record list, and hence the very
same Summary — the aggregate is a function of the enriched record list
alone, independent of worker count and completion order. -/
theorem summary_schedule_independent (jenv : Nat → JobResults)
    (aenv : AggEnv) (base : List OutRepo) (s1 s2 : List Nat)
    (h1 : s1.Perm (List.range base.length))
    (h2 : s2.Perm (List.range base.length)) :
    runSchedule jenv base s1 = runSchedule jenv base s2 ∧
    buildSummary aenv (runSchedule jenv base s1) =
      buildSummary aenv (runSchedule jenv base s2) := by
  have hp : s1.Perm s2 := h1.trans h2.symm
  have he : runSchedule jenv base s1 = runSchedule jenv base s2 :=
    hp.foldl_eq' (fun x _ y _ z => applyJob_comm jenv z x y) base
  exact ⟨he, by rw [he]⟩

/-- Witness for C2: on a two-record list, the completion orders `[0, 1]`
and `[1, 0]` give identical record lists and summaries. -/
theorem summary_schedule_independent_witness :
    runSchedule (fun _ =>
        { last := .ok ("2024-01-01T00:00:00Z", "m")
          activity := ⟨[⟨2, 1, []⟩], false, none⟩
          langs := .ok [("Go", 10)]
          contribs := .ok ([⟨"u", 3⟩], 1) })
      [baseRepo, tsRepo] [0, 1] =
    runSchedule (fun _ =>
        { last := .ok ("2024-01-01T00:00:00Z", "m")
          activity := ⟨[⟨2, 1, []⟩], false, none⟩
          langs := .ok [("Go", 10)]
          contribs := .ok ([⟨"u", 3⟩], 1) })
      [baseRepo, tsRepo] [1, 0] ∧
    buildSummary exAggEnv (runSchedule (fun _ =>
        { last := .ok ("2024-01-01T00:00:00Z", "m")
          activity := ⟨[⟨2, 1, []⟩], false, none⟩
          langs := .ok [("Go", 10)]
          contribs := .ok ([⟨"u", 3⟩], 1) })
      [baseRepo, tsRepo] [0, 1]) =
    buildSummary exAggEnv (runSchedule (fun _ =>
        { last := .ok ("2024-01-01T00:00:00Z", "m")
          activity := ⟨[⟨2, 1, []⟩], false, none⟩
          langs := .ok [("Go", 10)]
          contribs := .ok ([⟨"u", 3⟩], 1) })
      [baseRepo, tsRepo] [1, 0]) :=
  summary_schedule_independent _ exAggEnv [baseRepo, tsRepo] [0, 1] [1, 0]
    (by decide) (by decide)

end GitLore
